import Mathlib

/-!
# Verification of `symbolic_math.hpp`

A shallow embedding of the constexpr symbolic-math library in
`symbolic_math.hpp`: the expression tree (`Symbol`, `Constant`, `Add`,
`Subtract`, `Multiply`, `Divide`), the first-match tag lookups
(`get_binding_value`, `get_symbolic_binding_name`), the numeric evaluator
(`evaluate`, which throws on an unresolved symbol, modelled as `Except`),
the textual renderer (`symbolic_evaluate`), and the operator-overload
builder layer (`make_constant` and the scalar overloads of `+` and `*`).

Doubles are modelled by `FP`: exact rationals for finite values together
with the IEEE-754 special values (both infinities and NaN), so that the
exceptional-result behaviour of the arithmetic (division by zero yields a
signed infinity, `0/0` yields NaN) is captured faithfully; rounding of
finite results is not modelled, and no claim below depends on it.
-/

namespace SymbolicMath

/-- A model of the C++ `double`: a finite value (exact rational), positive
infinity, negative infinity, or NaN. -/
inductive FP where
  | finite : ℚ → FP
  | pinf : FP
  | ninf : FP
  | nan : FP
deriving DecidableEq, Repr

/-- IEEE-754 addition on the `FP` model (`lhs.evaluate(...) + rhs.evaluate(...)`). -/
def fpAdd : FP → FP → FP
  | .nan, _ => .nan
  | _, .nan => .nan
  | .pinf, .ninf => .nan
  | .ninf, .pinf => .nan
  | .pinf, _ => .pinf
  | _, .pinf => .pinf
  | .ninf, _ => .ninf
  | _, .ninf => .ninf
  | .finite a, .finite b => .finite (a + b)

/-- IEEE-754 subtraction on the `FP` model. -/
def fpSub : FP → FP → FP
  | .nan, _ => .nan
  | _, .nan => .nan
  | .pinf, .pinf => .nan
  | .ninf, .ninf => .nan
  | .pinf, _ => .pinf
  | _, .ninf => .pinf
  | .ninf, _ => .ninf
  | _, .pinf => .ninf
  | .finite a, .finite b => .finite (a - b)

/-- IEEE-754 multiplication on the `FP` model (`0 * ∞ = NaN`). -/
def fpMul : FP → FP → FP
  | .nan, _ => .nan
  | _, .nan => .nan
  | .pinf, .pinf => .pinf
  | .ninf, .ninf => .pinf
  | .pinf, .ninf => .ninf
  | .ninf, .pinf => .ninf
  | .pinf, .finite b => if b = 0 then .nan else if 0 < b then .pinf else .ninf
  | .finite a, .pinf => if a = 0 then .nan else if 0 < a then .pinf else .ninf
  | .ninf, .finite b => if b = 0 then .nan else if 0 < b then .ninf else .pinf
  | .finite a, .ninf => if a = 0 then .nan else if 0 < a then .ninf else .pinf
  | .finite a, .finite b => .finite (a * b)

/-- IEEE-754 division on the `FP` model: a nonzero finite value divided by
zero yields a signed infinity, `0/0` yields NaN, `∞/∞` yields NaN. -/
def fpDiv : FP → FP → FP
  | .nan, _ => .nan
  | _, .nan => .nan
  | .pinf, .pinf => .nan
  | .pinf, .ninf => .nan
  | .ninf, .pinf => .nan
  | .ninf, .ninf => .nan
  | .pinf, .finite b => if 0 ≤ b then .pinf else .ninf
  | .ninf, .finite b => if 0 ≤ b then .ninf else .pinf
  | .finite _, .pinf => .finite 0
  | .finite _, .ninf => .finite 0
  | .finite a, .finite b =>
    if b = 0 then
      if a = 0 then .nan else if 0 < a then .pinf else .ninf
    else .finite (a / b)

/-- The identity tag `Tag = const void *`: an opaque process-unique token,
modelled as a natural number. Equality is identity of the minting site. -/
def Tag := Nat
deriving DecidableEq, Repr

instance : OfNat Tag n := ⟨(n : Nat)⟩

/-- `struct Binding` — a (tag, numeric value) pair. -/
structure Binding where
  tag : Tag
  value : FP
deriving DecidableEq, Repr

/-- `struct SymbolicBinding` — a (tag, display name) pair. -/
structure SymbolicBinding where
  tag : Tag
  name : String
deriving DecidableEq, Repr

/-- The only evaluation failure: the exception thrown by `get_binding_value`
when a symbol's tag has no matching entry in the binding list. -/
inductive EvalError where
  | unresolvedSymbol : EvalError
deriving DecidableEq, Repr

/-- `get_binding_value(tag, bindings)`: first-match-by-tag linear scan;
`std::logic_error` on a missing tag is modelled as `Except.error`. -/
def get_binding_value (tag : Tag) : List Binding → Except EvalError FP
  | [] => .error .unresolvedSymbol
  | b :: rest => if b.tag = tag then .ok b.value else get_binding_value tag rest

/-- `get_symbolic_binding_name(tag, symbolic_bindings)`: first-match-by-tag
linear scan; returns the empty string when no entry matches. -/
def get_symbolic_binding_name (tag : Tag) : List SymbolicBinding → String
  | [] => ""
  | b :: rest => if b.tag = tag then b.name else get_symbolic_binding_name tag rest

/-- Modelled from the spec: the decimal textual form of a double produced by
the C++ standard library formatting used in `Constant::symbolic_evaluate`
(`std::format` with the default format for `double`, not in this repository's
sources). Only its existence and its use as the fallback text for an unnamed
constant matter to the claims; no claim depends on the exact digit string, so
any injective rendering of the `FP` model serves. -/
def formatValue : FP → String
  | .finite q => if q.den = 1 then toString q.num else toString q.num ++ "/" ++ toString q.den
  | .pinf => "inf"
  | .ninf => "-inf"
  | .nan => "nan"

/-- The expression tree: the closed variant set
`Symbol / Constant / Add / Subtract / Multiply / Divide` of
`symbolic_math.hpp` (each C++ node type carries its operands by value; the
per-shape template instantiation collapses to one inductive type). Every
`Constant` carries a tag (minted at its declaration site) and a value. -/
inductive Expr where
  | symbol : Tag → Expr
  | constant : Tag → FP → Expr
  | add : Expr → Expr → Expr
  | sub : Expr → Expr → Expr
  | mul : Expr → Expr → Expr
  | div : Expr → Expr → Expr
deriving DecidableEq, Repr

/-- The numeric evaluator: `Symbol::evaluate` is `get_binding_value`,
`Constant::evaluate` returns the stored value ignoring the bindings, and
each binary node evaluates both operands and combines them; a thrown
`std::logic_error` propagates out of the whole call (the `Except` bind). -/
def evaluate : Expr → List Binding → Except EvalError FP
  | .symbol t, bs => get_binding_value t bs
  | .constant _ v, _ => .ok v
  | .add l r, bs =>
    match evaluate l bs with
    | .error e => .error e
    | .ok a =>
      match evaluate r bs with
      | .error e => .error e
      | .ok b => .ok (fpAdd a b)
  | .sub l r, bs =>
    match evaluate l bs with
    | .error e => .error e
    | .ok a =>
      match evaluate r bs with
      | .error e => .error e
      | .ok b => .ok (fpSub a b)
  | .mul l r, bs =>
    match evaluate l bs with
    | .error e => .error e
    | .ok a =>
      match evaluate r bs with
      | .error e => .error e
      | .ok b => .ok (fpMul a b)
  | .div l r, bs =>
    match evaluate l bs with
    | .error e => .error e
    | .ok a =>
      match evaluate r bs with
      | .error e => .error e
      | .ok b => .ok (fpDiv a b)

/-- The textual renderer `symbolic_evaluate`: a `Symbol` renders as the
looked-up name (the empty string when unresolved); a `Constant` renders as
its looked-up name unless that name has length zero, in which case it falls
back to the formatted value; each binary node renders as
`"(" ++ left ++ " op " ++ right ++ ")"`. -/
def symbolic_evaluate : Expr → List SymbolicBinding → String
  | .symbol t, ns => get_symbolic_binding_name t ns
  | .constant t v, ns =>
    let name := get_symbolic_binding_name t ns
    if name.length = 0 then formatValue v else name
  | .add l r, ns => "(" ++ symbolic_evaluate l ns ++ " + " ++ symbolic_evaluate r ns ++ ")"
  | .sub l r, ns => "(" ++ symbolic_evaluate l ns ++ " - " ++ symbolic_evaluate r ns ++ ")"
  | .mul l r, ns => "(" ++ symbolic_evaluate l ns ++ " * " ++ symbolic_evaluate r ns ++ ")"
  | .div l r, ns => "(" ++ symbolic_evaluate l ns ++ " / " ++ symbolic_evaluate r ns ++ ")"

/-- Whether the tree contains a `Symbol` node with the given tag. -/
def contains_symbol (t : Tag) : Expr → Bool
  | .symbol s => decide (s = t)
  | .constant _ _ => false
  | .add l r => contains_symbol t l || contains_symbol t r
  | .sub l r => contains_symbol t l || contains_symbol t r
  | .mul l r => contains_symbol t l || contains_symbol t r
  | .div l r => contains_symbol t l || contains_symbol t r

/-- Whether the binding list has any entry with the given tag. -/
def has_tag (t : Tag) : List Binding → Bool
  | [] => false
  | b :: rest => decide (b.tag = t) || has_tag t rest

/-- Whether the naming list has any entry with the given tag. -/
def has_naming (t : Tag) : List SymbolicBinding → Bool
  | [] => false
  | b :: rest => decide (b.tag = t) || has_naming t rest

/-- Whether the tree is built only from `Constant` leaves and the four
binary operators (no `Symbol` node). -/
def const_only : Expr → Bool
  | .symbol _ => false
  | .constant _ _ => true
  | .add l r => const_only l && const_only r
  | .sub l r => const_only l && const_only r
  | .mul l r => const_only l && const_only r
  | .div l r => const_only l && const_only r

/-- Direct arithmetic evaluation, written from the spec's words for the
refinement half of the structural-reduction claim: a total function mapping
each `Constant` to its value and each operator node to the arithmetic
combination of its children, with no binding lookup at all (`Symbol` leaves,
excluded by `const_only`, are sent to NaN). -/
def directEval : Expr → FP
  | .symbol _ => .nan
  | .constant _ v => v
  | .add l r => fpAdd (directEval l) (directEval r)
  | .sub l r => fpSub (directEval l) (directEval r)
  | .mul l r => fpMul (directEval l) (directEval r)
  | .div l r => fpDiv (directEval l) (directEval r)

/-- Specification-side observer of the textual lookup: the same first-match
scan as `get_symbolic_binding_name`, but returning `none` when the tag is
absent, so that claims contrasting a missing tag with a tag bound to the
empty string can be stated. -/
def find_name (t : Tag) : List SymbolicBinding → Option String
  | [] => none
  | b :: rest => if b.tag = t then some b.name else find_name t rest

/-! ## The builder / composition layer

`make_constant` is called from a single source location (line 202), so class
template argument deduction mints the tag of the wrapped `Constant` exactly
once: every auto-wrapped constant shares the one tag of that site, modelled
as the fixed tag `make_constant_tag`. -/

/-- The single identity tag minted at the `Constant(d)` deduction site inside
`make_constant`; shared by every auto-wrapped constant. -/
def make_constant_tag : Tag := 0

/-- `make_constant(double d)`: wraps a bare double in a `Constant` carrying
the one tag of its single call site. -/
def make_constant (d : FP) : Expr := .constant make_constant_tag d

/-- An operand of the overloaded arithmetic operators: an expression node or
a bare double. -/
inductive Operand where
  | node : Expr → Operand
  | scalar : FP → Operand
deriving DecidableEq, Repr

/-- Overload resolution for `operator+`: the generic node-node template
builds an `Add` node, and the two double overloads wrap the scalar with
`make_constant` on either side. Two bare doubles never reach the library
(plain double addition), modelled as `none`. -/
def addOp : Operand → Operand → Option Expr
  | .node l, .node r => some (.add l r)
  | .scalar d, .node e => some (.add (make_constant d) e)
  | .node e, .scalar d => some (.add e (make_constant d))
  | .scalar _, .scalar _ => none

/-- Overload resolution for `operator*`: symmetric to `addOp`, with the two
double overloads wrapping the scalar via `make_constant`. -/
def mulOp : Operand → Operand → Option Expr
  | .node l, .node r => some (.mul l r)
  | .scalar d, .node e => some (.mul (make_constant d) e)
  | .node e, .scalar d => some (.mul e (make_constant d))
  | .scalar _, .scalar _ => none

/-- Overload resolution for `operator-`: only the generic node-node template
exists. With a bare double operand the template stores the raw double, whose
`evaluate` / `symbolic_evaluate` member calls do not compile, so no usable
node (in particular no `Constant`-wrapped one) is produced: modelled as
`none`. -/
def subOp : Operand → Operand → Option Expr
  | .node l, .node r => some (.sub l r)
  | _, _ => none

/-- Overload resolution for `operator/`: only the generic node-node template
exists; as with `subOp`, a bare double operand yields no usable node. -/
def divOp : Operand → Operand → Option Expr
  | .node l, .node r => some (.div l r)
  | _, _ => none

/-! ## Helper lemmas -/

theorem get_binding_value_error_of_not_has_tag (t : Tag) (bs : List Binding)
    (h : has_tag t bs = false) : get_binding_value t bs = .error .unresolvedSymbol := by
  induction bs with
  | nil => rfl
  | cons b rest ih =>
    simp only [has_tag, Bool.or_eq_false_iff, decide_eq_false_iff_not] at h
    simp only [get_binding_value, if_neg h.1]
    exact ih h.2

theorem get_symbolic_binding_name_empty_of_not_has_naming (t : Tag)
    (ns : List SymbolicBinding) (h : has_naming t ns = false) :
    get_symbolic_binding_name t ns = "" := by
  induction ns with
  | nil => rfl
  | cons b rest ih =>
    simp only [has_naming, Bool.or_eq_false_iff, decide_eq_false_iff_not] at h
    simp only [get_symbolic_binding_name, if_neg h.1]
    exact ih h.2

theorem get_name_of_find_name_none (t : Tag) (ns : List SymbolicBinding)
    (h : find_name t ns = none) : get_symbolic_binding_name t ns = "" := by
  induction ns with
  | nil => rfl
  | cons b rest ih =>
    by_cases hb : b.tag = t
    · simp [find_name, hb] at h
    · simp only [find_name, if_neg hb] at h
      simp only [get_symbolic_binding_name, if_neg hb]
      exact ih h

theorem get_name_of_find_name_some (t : Tag) (ns : List SymbolicBinding) (s : String)
    (h : find_name t ns = some s) : get_symbolic_binding_name t ns = s := by
  induction ns with
  | nil => simp [find_name] at h
  | cons b rest ih =>
    by_cases hb : b.tag = t
    · simp only [find_name, if_pos hb, Option.some.injEq] at h
      simp only [get_symbolic_binding_name, if_pos hb]
      exact h
    · simp only [find_name, if_neg hb] at h
      simp only [get_symbolic_binding_name, if_neg hb]
      exact ih h

theorem evaluate_const_only_eq (e : Expr) (bs : List Binding)
    (h : const_only e = true) : evaluate e bs = .ok (directEval e) := by
  induction e with
  | symbol s => simp [const_only] at h
  | constant t v => rfl
  | add l r ihl ihr =>
    simp only [const_only, Bool.and_eq_true] at h
    simp [evaluate, directEval, ihl h.1, ihr h.2]
  | sub l r ihl ihr =>
    simp only [const_only, Bool.and_eq_true] at h
    simp [evaluate, directEval, ihl h.1, ihr h.2]
  | mul l r ihl ihr =>
    simp only [const_only, Bool.and_eq_true] at h
    simp [evaluate, directEval, ihl h.1, ihr h.2]
  | div l r ihl ihr =>
    simp only [const_only, Bool.and_eq_true] at h
    simp [evaluate, directEval, ihl h.1, ihr h.2]

theorem get_binding_value_append_first (t : Tag) (pre post : List Binding) (b : Binding)
    (hb : b.tag = t) :
    (∀ x ∈ pre, x.tag ≠ t) → get_binding_value t (pre ++ b :: post) = .ok b.value := by
  induction pre with
  | nil => intro _; simp [get_binding_value, hb]
  | cons x rest ih =>
    intro hpre
    have hx : x.tag ≠ t := hpre x (List.mem_cons_self x rest)
    simp only [List.cons_append, get_binding_value, if_neg hx]
    exact ih fun y hy => hpre y (List.mem_cons_of_mem x hy)

theorem get_symbolic_binding_name_append_first (t : Tag) (pre post : List SymbolicBinding)
    (b : SymbolicBinding) (hb : b.tag = t) :
    (∀ x ∈ pre, x.tag ≠ t) → get_symbolic_binding_name t (pre ++ b :: post) = b.name := by
  induction pre with
  | nil => intro _; simp [get_symbolic_binding_name, hb]
  | cons x rest ih =>
    intro hpre
    have hx : x.tag ≠ t := hpre x (List.mem_cons_self x rest)
    simp only [List.cons_append, get_symbolic_binding_name, if_neg hx]
    exact ih fun y hy => hpre y (List.mem_cons_of_mem x hy)

/-! ## Claim theorems -/

/-- C1: for every expression tree containing a `Symbol` node and every
binding list with no entry whose tag equals that symbol's tag, `evaluate`
fails with the `UnresolvedSymbol` error — it never returns a number (in
particular never a default such as `0.0` or NaN). -/
theorem c1_unresolved_symbol_fatal (e : Expr) (t : Tag) (bs : List Binding)
    (he : contains_symbol t e = true) (hb : has_tag t bs = false) :
    evaluate e bs = .error .unresolvedSymbol := by
  induction e with
  | symbol s =>
    simp only [contains_symbol, decide_eq_true_eq] at he
    subst he
    exact get_binding_value_error_of_not_has_tag s bs hb
  | constant tg v => simp [contains_symbol] at he
  | add l r ihl ihr =>
    simp only [contains_symbol, Bool.or_eq_true] at he
    rcases he with h | h
    · simp [evaluate, ihl h]
    · cases hl : evaluate l bs with
      | error err => cases err; simp [evaluate, hl]
      | ok a => simp [evaluate, hl, ihr h]
  | sub l r ihl ihr =>
    simp only [contains_symbol, Bool.or_eq_true] at he
    rcases he with h | h
    · simp [evaluate, ihl h]
    · cases hl : evaluate l bs with
      | error err => cases err; simp [evaluate, hl]
      | ok a => simp [evaluate, hl, ihr h]
  | mul l r ihl ihr =>
    simp only [contains_symbol, Bool.or_eq_true] at he
    rcases he with h | h
    · simp [evaluate, ihl h]
    · cases hl : evaluate l bs with
      | error err => cases err; simp [evaluate, hl]
      | ok a => simp [evaluate, hl, ihr h]
  | div l r ihl ihr =>
    simp only [contains_symbol, Bool.or_eq_true] at he
    rcases he with h | h
    · simp [evaluate, ihl h]
    · cases hl : evaluate l bs with
      | error err => cases err; simp [evaluate, hl]
      | ok a => simp [evaluate, hl, ihr h]

theorem c1_witness :
    contains_symbol 7 (.symbol 7) = true ∧ has_tag 7 ([] : List Binding) = false ∧
    evaluate (.symbol 7) [] = .error .unresolvedSymbol :=
  ⟨by decide, by decide, c1_unresolved_symbol_fatal (.symbol 7) 7 [] (by decide) (by decide)⟩

/-- C2: numeric evaluation is a post-order structural reduction: each binary
node evaluates to the arithmetic combination of its children's values, a
`Constant` evaluates to its stored value with the bindings ignored, and every
expression built only from `Constant`s and the four operators evaluates under
the empty binding list to the direct arithmetic evaluation of the equivalent
expression. -/
theorem c2_postorder_reduction (l r : Expr) (bs : List Binding) (a b : FP)
    (hl : evaluate l bs = .ok a) (hr : evaluate r bs = .ok b) :
    evaluate (.add l r) bs = .ok (fpAdd a b) ∧
    evaluate (.sub l r) bs = .ok (fpSub a b) ∧
    evaluate (.mul l r) bs = .ok (fpMul a b) ∧
    evaluate (.div l r) bs = .ok (fpDiv a b) ∧
    (∀ (t : Tag) (v : FP) (bs2 : List Binding), evaluate (.constant t v) bs2 = .ok v) ∧
    (∀ e : Expr, const_only e = true → evaluate e [] = .ok (directEval e)) :=
  ⟨by simp [evaluate, hl, hr], by simp [evaluate, hl, hr], by simp [evaluate, hl, hr],
   by simp [evaluate, hl, hr], fun _ _ _ => rfl, fun e he => evaluate_const_only_eq e [] he⟩

theorem c2_witness :
    evaluate (Expr.constant 1 (.finite 2)) [] = .ok (.finite 2) ∧
    evaluate (Expr.constant 1 (.finite 3)) [] = .ok (.finite 3) ∧
    evaluate (.add (.constant 1 (.finite 2)) (.constant 1 (.finite 3))) [] =
      .ok (fpAdd (.finite 2) (.finite 3)) :=
  ⟨rfl, rfl,
   (c2_postorder_reduction (.constant 1 (.finite 2)) (.constant 1 (.finite 3)) []
     (.finite 2) (.finite 3) rfl rfl).1⟩

/-- C3: rendering a binary node produces exactly the fully parenthesized,
single-spaced combination of the rendered operands with the operator symbol
(`+`, `-`, `*`, `/`), with no elision, simplification or constant folding;
in particular `x + (y*z)` with names x, y, z renders exactly as
`"(x + (y * z))"`. -/
theorem c3_render_fully_parenthesized (l r : Expr) (ns : List SymbolicBinding) :
    symbolic_evaluate (.add l r) ns =
      "(" ++ symbolic_evaluate l ns ++ " + " ++ symbolic_evaluate r ns ++ ")" ∧
    symbolic_evaluate (.sub l r) ns =
      "(" ++ symbolic_evaluate l ns ++ " - " ++ symbolic_evaluate r ns ++ ")" ∧
    symbolic_evaluate (.mul l r) ns =
      "(" ++ symbolic_evaluate l ns ++ " * " ++ symbolic_evaluate r ns ++ ")" ∧
    symbolic_evaluate (.div l r) ns =
      "(" ++ symbolic_evaluate l ns ++ " / " ++ symbolic_evaluate r ns ++ ")" ∧
    symbolic_evaluate (.add (.symbol 1) (.mul (.symbol 2) (.symbol 3)))
      [⟨1, "x"⟩, ⟨2, "y"⟩, ⟨3, "z"⟩] = "(x + (y * z))" :=
  ⟨rfl, rfl, rfl, rfl, by decide⟩

/-- C4 counterexample: with two entries of the same tag in a binding list,
lookup returns the value of the EARLIER entry, not the later-appended one —
refuting the claimed append-to-shadow semantics at a concrete input. -/
theorem c4_counterexample :
    get_binding_value 0 [⟨0, .finite 1⟩, ⟨0, .finite 2⟩] = .ok (.finite 1) ∧
    get_binding_value 0 [⟨0, .finite 1⟩, ⟨0, .finite 2⟩] ≠ .ok (.finite 2) := by
  have h1 : get_binding_value 0 [⟨0, .finite 1⟩, ⟨0, .finite 2⟩] = .ok (.finite 1) := rfl
  refine ⟨h1, ?_⟩
  rw [h1]
  intro h
  have h3 := FP.finite.inj (Except.ok.inj h)
  norm_num at h3

/-- C4 (amended): lookup is a linear scan of the supplied ordered sequence in
which the FIRST entry whose tag matches wins, for both numeric and textual
lookup; with two entries of the same tag the earlier one is returned, so a
caller shadows an existing binding by prepending, not appending. -/
theorem c4_lookup_first_match (t : Tag) (pre post : List Binding) (b : Binding)
    (pre2 post2 : List SymbolicBinding) (sb : SymbolicBinding)
    (hpre : ∀ x ∈ pre, x.tag ≠ t) (hb : b.tag = t)
    (hpre2 : ∀ x ∈ pre2, x.tag ≠ t) (hsb : sb.tag = t) :
    get_binding_value t (pre ++ b :: post) = .ok b.value ∧
    get_symbolic_binding_name t (pre2 ++ sb :: post2) = sb.name ∧
    (∀ (v : FP) (rest : List Binding), get_binding_value t (⟨t, v⟩ :: rest) = .ok v) :=
  ⟨get_binding_value_append_first t pre post b hb hpre,
   get_symbolic_binding_name_append_first t pre2 post2 sb hsb hpre2,
   fun v rest => by simp [get_binding_value]⟩

theorem c4_witness :
    (∀ x ∈ [(⟨1, .finite 5⟩ : Binding)], x.tag ≠ 0) ∧
    (∀ x ∈ [(⟨1, "a"⟩ : SymbolicBinding)], x.tag ≠ 0) ∧
    get_binding_value 0 ([⟨1, .finite 5⟩] ++ (⟨0, .finite 7⟩ : Binding) :: [⟨0, .finite 9⟩]) =
      .ok (.finite 7) :=
  ⟨by decide, by decide,
   (c4_lookup_first_match 0 [⟨1, .finite 5⟩] [⟨0, .finite 9⟩] ⟨0, .finite 7⟩
     [⟨1, "a"⟩] [⟨0, "z"⟩] ⟨0, "s"⟩ (by decide) (by decide) (by decide) (by decide)).1⟩

/-- C5: division by zero is not an error: whenever the right operand of a
`Divide` node evaluates to zero (and the left evaluates to some value),
`evaluate` succeeds with the IEEE-754 result of the division — a signed
infinity or NaN — and in particular `1/x` with `x` bound to `0.0` evaluates
to positive infinity. -/
theorem c5_divide_by_zero (l r : Expr) (bs : List Binding) (a : FP)
    (hl : evaluate l bs = .ok a) (hr : evaluate r bs = .ok (.finite 0)) :
    evaluate (.div l r) bs = .ok (fpDiv a (.finite 0)) ∧
    (fpDiv a (.finite 0) = .pinf ∨ fpDiv a (.finite 0) = .ninf ∨
      fpDiv a (.finite 0) = .nan) ∧
    evaluate (.div (.constant 1 (.finite 1)) (.symbol 2)) [⟨2, .finite 0⟩] = .ok .pinf := by
  refine ⟨by simp [evaluate, hl, hr], ?_, by rfl⟩
  cases a with
  | finite q =>
    by_cases hq : q = 0
    · subst hq; simp [fpDiv]
    · by_cases hq2 : 0 < q
      · simp [fpDiv, hq, hq2]
      · simp [fpDiv, hq, hq2]
  | pinf => simp [fpDiv]
  | ninf => simp [fpDiv]
  | nan => simp [fpDiv]

theorem c5_witness :
    evaluate (Expr.constant 1 (.finite 1)) [] = .ok (.finite 1) ∧
    evaluate (Expr.constant 2 (.finite 0)) [] = .ok (.finite 0) ∧
    evaluate (.div (.constant 1 (.finite 1)) (.constant 2 (.finite 0))) [] =
      .ok (fpDiv (.finite 1) (.finite 0)) :=
  ⟨rfl, rfl,
   (c5_divide_by_zero (.constant 1 (.finite 1)) (.constant 2 (.finite 0)) []
     (.finite 1) rfl rfl).1⟩

/-- C6 counterexample: composing a bare double with a node under `-` (or `/`)
does not produce a `BinaryOp` node with the double wrapped into a `Constant`:
no scalar overload exists for these operators, so no usable node is produced
at all, refuting the claim at a concrete input. -/
theorem c6_counterexample :
    subOp (.scalar (.finite 1)) (.node (.symbol 1)) = none ∧
    divOp (.node (.symbol 1)) (.scalar (.finite 2)) = none ∧
    (none : Option Expr) ≠ some (.sub (make_constant (.finite 1)) (.symbol 1)) :=
  ⟨rfl, rfl, by simp⟩

/-- C6 (amended): node-node composition with each of the four operators
produces the corresponding `BinaryOp` node; a bare double operand is
implicitly wrapped into a `Constant` (via `make_constant`) only by the scalar
overloads of `+` and `*`, which support both placements; `-` and `/` have no
scalar overloads, so composition with a bare double produces no usable node. -/
theorem c6_builder_composition (l r : Expr) (d : FP) :
    addOp (.node l) (.node r) = some (.add l r) ∧
    subOp (.node l) (.node r) = some (.sub l r) ∧
    mulOp (.node l) (.node r) = some (.mul l r) ∧
    divOp (.node l) (.node r) = some (.div l r) ∧
    addOp (.scalar d) (.node l) = some (.add (make_constant d) l) ∧
    addOp (.node l) (.scalar d) = some (.add l (make_constant d)) ∧
    mulOp (.scalar d) (.node l) = some (.mul (make_constant d) l) ∧
    mulOp (.node l) (.scalar d) = some (.mul l (make_constant d)) ∧
    subOp (.scalar d) (.node l) = none ∧
    subOp (.node l) (.scalar d) = none ∧
    divOp (.scalar d) (.node l) = none ∧
    divOp (.node l) (.scalar d) = none :=
  ⟨rfl, rfl, rfl, rfl, rfl, rfl, rfl, rfl, rfl, rfl, rfl, rfl⟩

/-- C7: rendering never fails — `symbolic_evaluate` is a total function into
strings; a `Symbol` whose tag has no matching naming renders as the empty
string, and a `Constant` whose tag is absent from the namings (or, more
generally, resolves to the empty name) renders as the textual form of its
value. -/
theorem c7_render_never_fails (t : Tag) (v : FP) (ns : List SymbolicBinding)
    (hmiss : has_naming t ns = false) :
    symbolic_evaluate (.symbol t) ns = "" ∧
    symbolic_evaluate (.constant t v) ns = formatValue v ∧
    (∀ ns2, get_symbolic_binding_name t ns2 = "" →
      symbolic_evaluate (.constant t v) ns2 = formatValue v) := by
  have h := get_symbolic_binding_name_empty_of_not_has_naming t ns hmiss
  refine ⟨h, ?_, ?_⟩
  · simp [symbolic_evaluate, h]
  · intro ns2 h2
    simp [symbolic_evaluate, h2]

theorem c7_witness :
    has_naming 5 ([] : List SymbolicBinding) = false ∧
    symbolic_evaluate (.symbol 5) [] = "" ∧
    symbolic_evaluate (.constant 5 (.finite 3)) [] = formatValue (.finite 3) :=
  ⟨by decide, (c7_render_never_fails 5 (.finite 3) [] (by decide)).1,
   (c7_render_never_fails 5 (.finite 3) [] (by decide)).2.1⟩

/-- C8 counterexample: the claim is false — there is NO tag and pair of
naming lists, one lacking the tag and one resolving it to the empty string,
on which the textual lookup (or `Constant` rendering built on it) can be told
apart: `get_symbolic_binding_name` returns the empty string in both cases and
the constant falls back to its formatted value in both cases. -/
theorem c8_counterexample :
    ¬ ∃ (t : Tag) (n1 n2 : List SymbolicBinding),
        find_name t n1 = none ∧ find_name t n2 = some "" ∧
        (get_symbolic_binding_name t n1 ≠ get_symbolic_binding_name t n2 ∨
          ∃ v : FP, symbolic_evaluate (.constant t v) n1 ≠
            symbolic_evaluate (.constant t v) n2) := by
  rintro ⟨t, n1, n2, h1, h2, h3 | ⟨v, h3⟩⟩
  · exact h3 ((get_name_of_find_name_none t n1 h1).trans
      (get_name_of_find_name_some t n2 "" h2).symm)
  · apply h3
    simp [symbolic_evaluate, get_name_of_find_name_none t n1 h1,
      get_name_of_find_name_some t n2 "" h2]

/-- C8 (amended): a textual lookup that finds no matching tag returns the
empty string, which is indistinguishable from a lookup that resolves the tag
to the empty string; `Constant` rendering treats the two cases identically,
falling back to the textual form of the value in both. -/
theorem c8_empty_name_indistinguishable (t : Tag) (n1 n2 : List SymbolicBinding) (v : FP)
    (h1 : find_name t n1 = none) (h2 : find_name t n2 = some "") :
    get_symbolic_binding_name t n1 = "" ∧
    get_symbolic_binding_name t n2 = "" ∧
    symbolic_evaluate (.constant t v) n1 = formatValue v ∧
    symbolic_evaluate (.constant t v) n2 = formatValue v := by
  have e1 := get_name_of_find_name_none t n1 h1
  have e2 := get_name_of_find_name_some t n2 "" h2
  exact ⟨e1, e2, by simp [symbolic_evaluate, e1], by simp [symbolic_evaluate, e2]⟩

theorem c8_witness :
    find_name 4 ([] : List SymbolicBinding) = none ∧
    find_name 4 [(⟨4, ""⟩ : SymbolicBinding)] = some "" ∧
    symbolic_evaluate (.constant 4 (.finite 2)) [] = formatValue (.finite 2) ∧
    symbolic_evaluate (.constant 4 (.finite 2)) [⟨4, ""⟩] = formatValue (.finite 2) :=
  ⟨rfl, rfl,
   (c8_empty_name_indistinguishable 4 [] [⟨4, ""⟩] (.finite 2) rfl rfl).2.2.1,
   (c8_empty_name_indistinguishable 4 [] [⟨4, ""⟩] (.finite 2) rfl rfl).2.2.2⟩

/-- C10: every `Constant` created by auto-wrapping a bare double through the
scalar overloads of `+` and `*` (via `make_constant`, a single call site) has
the same single identity tag, `make_constant_tag`; consequently one naming
entry for that shared tag renames every auto-wrapped constant in every
expression at once. -/
theorem c10_shared_auto_constant_tag (d1 d2 : FP) (e : Expr) :
    make_constant d1 = .constant make_constant_tag d1 ∧
    make_constant d2 = .constant make_constant_tag d2 ∧
    mulOp (.scalar d1) (.node e) = some (.mul (.constant make_constant_tag d1) e) ∧
    addOp (.node e) (.scalar d2) = some (.add e (.constant make_constant_tag d2)) ∧
    symbolic_evaluate
      (.add (.mul (make_constant (.finite 2)) (.symbol 1))
        (.mul (make_constant (.finite 3)) (.symbol 2)))
      [⟨make_constant_tag, "k"⟩, ⟨1, "x"⟩, ⟨2, "y"⟩] = "((k * x) + (k * y))" :=
  ⟨rfl, rfl, rfl, rfl, by decide⟩

end SymbolicMath
